import Mathlib

/-!
# Verification of the SproutCore observer registry and string formatter

Shallow embedding of `src/private/observer_set.js` (`SC._ObserverSet`) and of
`SC.String.fmt` from `src/mixins/string.js`, together with proofs of the
specified properties.

The registry object stores, under one own property per identity key
(`SC.guidFor(target)` for truthy targets, the reserved string `"__this__"`
otherwise), a mutable `SC.Set` of handler methods tagged with a `target`
back-reference, plus a `targets` counter, a `_members` cache array and a
`_membersCacheIsValid` flag.  We model the collection of key-indexed own
properties as an association list in property-insertion order, and the other
own properties as record fields.
-/

set_option autoImplicit false
set_option linter.unusedSectionVars false

namespace SproutCore

/-- A JavaScript value usable as an observer owner (`target`).  The source
only distinguishes truthy owners (real objects, each with its own identity)
from falsy ones; the two falsy owner representations the surrounding system
passes are absence (`undefined`) and explicit `null`, which we keep distinct
as values. -/
inductive JSOwner where
  | undef : JSOwner
  | null : JSOwner
  | obj : Nat → JSOwner
deriving DecidableEq, Repr

/-- JavaScript truthiness of an owner value: real objects are truthy,
`undefined` and `null` are falsy. -/
def JSOwner.truthy : JSOwner → Bool
  | .obj _ => true
  | _ => false

/-- An identity key as used for the registry's property names: either the
reserved `"__this__"` bucket or the guid `SC.guidFor` assigns to a real
object.  `SC.guidFor` is the external identity-allocator collaborator; per
its contract it is referentially stable and injective on distinct
references, and its keys never collide with the reserved sentinel, so we
model its output by the object's identity directly. -/
inductive GuidKey where
  | thisKey : GuidKey
  | guid : Nat → GuidKey
deriving DecidableEq, Repr

/-- `(target) ? SC.guidFor(target) : "__this__"` — the key computation shared
by `add` and `remove`. -/
def keyFor : JSOwner → GuidKey
  | .obj n => .guid n
  | _ => .thisKey

/-- Modelled from the spec: `SC.Set` (the handler collection) is not under
`src/`; the spec describes it as "a set of handler references, uniqueness by
reference identity, unordered", exposing `add`, `remove`, `length`, indexed
access `set[i]` for `0 ≤ i < length`, and `clone`.  We model its contents as
a duplicate-free list: `add` appends when absent, `remove` erases the
element, `clone` copies. -/
def SCSet.add {H : Type} [DecidableEq H] (l : List H) (h : H) : List H :=
  if h ∈ l then l else l ++ [h]

/-- Modelled from the spec: `SC.Set.remove` deletes the element if present,
no-op otherwise (see `SCSet.add`). -/
def SCSet.remove {H : Type} [DecidableEq H] (l : List H) (h : H) : List H :=
  l.erase h

/-- One target-method set: the value stored under one identity key.  In the
source it is an `SC.Set` of methods carrying a `target` back-reference and an
`isTargetSet` tag (the tag only distinguishes these values from the other own
properties during enumeration, which the association-list representation
already does). -/
structure MethodSet (H : Type) where
  target : JSOwner
  methods : List H
deriving DecidableEq, Repr

/-- The observer registry `SC._ObserverSet`.  `buckets` holds the key-indexed
own properties in insertion order; `targets`, `members` and
`membersCacheIsValid` are the `targets`, `_members` and `_membersCacheIsValid`
own properties (`members` is the contents of the `_members` array, which the
source allocates once and reuses across rebuilds). -/
structure ObserverSet (H : Type) where
  buckets : List (GuidKey × MethodSet H)
  targets : Int
  members : List (JSOwner × H)
  membersCacheIsValid : Bool
deriving DecidableEq, Repr

variable {H : Type} [DecidableEq H]

/-- Lookup of the own property `this[targetGuid]` among the target sets. -/
def findSet (key : GuidKey) : List (GuidKey × MethodSet H) → Option (MethodSet H)
  | [] => none
  | (k, s) :: rest => if k = key then some s else findSet key rest

/-- In-place mutation of the set stored at `key` (the source mutates the
found `SC.Set` object, leaving its property slot where it was). -/
def updateSet (key : GuidKey) (s : MethodSet H) :
    List (GuidKey × MethodSet H) → List (GuidKey × MethodSet H)
  | [] => []
  | (k, v) :: rest => if k = key then (k, s) :: rest else (k, v) :: updateSet key s rest

/-- `delete this[targetGuid]` — removes the own property stored at `key`. -/
def deleteSet (key : GuidKey) :
    List (GuidKey × MethodSet H) → List (GuidKey × MethodSet H)
  | [] => []
  | (k, v) :: rest => if k = key then rest else (k, v) :: deleteSet key rest

/-- `SC._ObserverSet.create()` — a fresh registry begotten from the
prototype: no target sets, `targets = 0`, no `_members` array yet and an
invalid cache. -/
def create : ObserverSet H :=
  { buckets := [], targets := 0, members := [], membersCacheIsValid := false }

/-- `SC._ObserverSet.add(target, method)`: looks up the bucket for
`keyFor target`; creates it (storing the `target` back-reference and
incrementing `targets`) when missing; inserts `method` into its set; and
invalidates the members cache. -/
def add (st : ObserverSet H) (target : JSOwner) (method : H) : ObserverSet H :=
  let targetGuid := keyFor target
  match findSet targetGuid st.buckets with
  | none =>
      { buckets := st.buckets ++ [(targetGuid, ⟨target, SCSet.add [] method⟩)]
        targets := st.targets + 1
        members := st.members
        membersCacheIsValid := false }
  | some methods =>
      { buckets := updateSet targetGuid ⟨methods.target, SCSet.add methods.methods method⟩
          st.buckets
        targets := st.targets
        members := st.members
        membersCacheIsValid := false }

/-- `SC._ObserverSet.remove(target, method)`: returns `NO` when no bucket
exists for `keyFor target`; otherwise removes `method` from the bucket's set,
deletes the bucket and decrements `targets` when the set became empty,
invalidates the cache, and returns `YES` — note the source returns `YES`
whenever the bucket exists, whether or not `method` was in it. -/
def remove (st : ObserverSet H) (target : JSOwner) (method : H) :
    Bool × ObserverSet H :=
  let targetGuid := keyFor target
  match findSet targetGuid st.buckets with
  | none => (false, st)
  | some methods =>
      let methods' := SCSet.remove methods.methods method
      if methods'.length ≤ 0 then
        (true,
          { buckets := deleteSet targetGuid st.buckets
            targets := st.targets - 1
            members := st.members
            membersCacheIsValid := false })
      else
        (true,
          { buckets := updateSet targetGuid ⟨methods.target, methods'⟩ st.buckets
            targets := st.targets
            members := st.members
            membersCacheIsValid := false })

/-- The rebuild loop of `getMembers`: for every target-set own property, in
property order, push `[target, value[idx]]` for `idx` from `length - 1` down
to `0` — i.e. the set's elements in reverse storage order, each paired with
the stored `target` back-reference. -/
def rebuildMembers : List (GuidKey × MethodSet H) → List (JSOwner × H)
  | [] => []
  | (_, s) :: rest => s.methods.reverse.map (fun m => (s.target, m)) ++ rebuildMembers rest

/-- `SC._ObserverSet.getMembers()`: when the cache is valid, returns the
`_members` array as is; otherwise resets that same array to length 0,
refills it from the buckets, marks the cache valid and returns it.  The
first component is the contents of the returned array, the second the
registry afterwards.  The returned array is the `_members` array itself
(`var ret = this._members`), so every sequence `getMembers` ever returns
aliases the `members` field: the contents later seen through a previously
returned sequence are the `members` field of the later state. -/
def getMembers (st : ObserverSet H) : List (JSOwner × H) × ObserverSet H :=
  if st.membersCacheIsValid then (st.members, st)
  else
    let ret := rebuildMembers st.buckets
    (ret, { st with members := ret, membersCacheIsValid := true })

/-- `SC._ObserverSet.clone()`: a fresh registry whose buckets hold cloned
sets (`oldSet.clone()`, a fresh `SC.Set` with the same elements) with the
same `target` back-references, the same `targets` count, no `_members` array
and an invalid cache. -/
def clone (st : ObserverSet H) : ObserverSet H :=
  { buckets := st.buckets
    targets := st.targets
    members := []
    membersCacheIsValid := false }

/-- The registry states reachable through the public operations, starting
from `create()`. -/
inductive Reachable : ObserverSet H → Prop where
  | create : Reachable create
  | add (st : ObserverSet H) (o : JSOwner) (h : H) :
      Reachable st → Reachable (add st o h)
  | remove (st : ObserverSet H) (o : JSOwner) (h : H) :
      Reachable st → Reachable (remove st o h).2
  | getMembers (st : ObserverSet H) :
      Reachable st → Reachable (getMembers st).2
  | clone (st : ObserverSet H) :
      Reachable st → Reachable (clone st)

/-! ## Association-list lemmas -/

theorem findSet_eq_none {key : GuidKey} {l : List (GuidKey × MethodSet H)} :
    findSet key l = none ↔ ∀ p ∈ l, p.1 ≠ key := by
  induction l with
  | nil => simp [findSet]
  | cons p rest ih =>
    obtain ⟨k, v⟩ := p
    by_cases hk : k = key <;> simp [findSet, hk, ih]

theorem findSet_mem {key : GuidKey} {l : List (GuidKey × MethodSet H)} {s : MethodSet H}
    (hfind : findSet key l = some s) : (key, s) ∈ l := by
  induction l with
  | nil => simp [findSet] at hfind
  | cons p rest ih =>
    obtain ⟨k, v⟩ := p
    by_cases hk : k = key
    · subst hk
      simp [findSet] at hfind
      subst hfind
      exact List.mem_cons_self _ _
    · simp [findSet, hk] at hfind
      exact List.mem_cons_of_mem _ (ih hfind)

theorem findSet_append_of_none {key : GuidKey} {l l₂ : List (GuidKey × MethodSet H)}
    (hl : findSet key l = none) : findSet key (l ++ l₂) = findSet key l₂ := by
  induction l with
  | nil => rfl
  | cons p rest ih =>
    obtain ⟨k, v⟩ := p
    by_cases hk : k = key
    · simp [findSet, hk] at hl
    · simp only [findSet, hk, if_false, List.cons_append, if_neg hk] at hl ⊢
      exact ih hl

theorem updateSet_of_none {key : GuidKey} {s : MethodSet H} {l : List (GuidKey × MethodSet H)}
    (hl : findSet key l = none) : updateSet key s l = l := by
  induction l with
  | nil => rfl
  | cons p rest ih =>
    obtain ⟨k, v⟩ := p
    by_cases hk : k = key
    · simp [findSet, hk] at hl
    · simp only [findSet, if_neg hk] at hl
      simp [updateSet, hk, ih hl]

theorem updateSet_append_of_none {key : GuidKey} {s : MethodSet H}
    {l l₂ : List (GuidKey × MethodSet H)} (hl : findSet key l = none) :
    updateSet key s (l ++ l₂) = l ++ updateSet key s l₂ := by
  induction l with
  | nil => rfl
  | cons p rest ih =>
    obtain ⟨k, v⟩ := p
    by_cases hk : k = key
    · simp [findSet, hk] at hl
    · simp only [findSet, if_neg hk] at hl
      simp [updateSet, hk, ih hl]

theorem deleteSet_append_of_none {key : GuidKey} {l l₂ : List (GuidKey × MethodSet H)}
    (hl : findSet key l = none) : deleteSet key (l ++ l₂) = l ++ deleteSet key l₂ := by
  induction l with
  | nil => rfl
  | cons p rest ih =>
    obtain ⟨k, v⟩ := p
    by_cases hk : k = key
    · simp [findSet, hk] at hl
    · simp only [findSet, if_neg hk] at hl
      simp [deleteSet, hk, ih hl]

theorem updateSet_self {key : GuidKey} {s : MethodSet H} {l : List (GuidKey × MethodSet H)}
    (hfind : findSet key l = some s) : updateSet key s l = l := by
  induction l with
  | nil => rfl
  | cons p rest ih =>
    obtain ⟨k, v⟩ := p
    by_cases hk : k = key
    · subst hk
      simp [findSet] at hfind
      simp [updateSet, hfind]
    · simp only [findSet, if_neg hk] at hfind
      simp [updateSet, hk, ih hfind]

theorem findSet_updateSet (key : GuidKey) (s : MethodSet H)
    (l : List (GuidKey × MethodSet H)) :
    findSet key (updateSet key s l) = (findSet key l).map (fun _ => s) := by
  induction l with
  | nil => rfl
  | cons p rest ih =>
    obtain ⟨k, v⟩ := p
    by_cases hk : k = key
    · simp [updateSet, findSet, hk]
    · simp [updateSet, findSet, hk, ih]

theorem updateSet_updateSet (key : GuidKey) (s₁ s₂ : MethodSet H)
    (l : List (GuidKey × MethodSet H)) :
    updateSet key s₂ (updateSet key s₁ l) = updateSet key s₂ l := by
  induction l with
  | nil => rfl
  | cons p rest ih =>
    obtain ⟨k, v⟩ := p
    by_cases hk : k = key
    · simp [updateSet, hk]
    · simp [updateSet, hk, ih]

theorem map_fst_updateSet (key : GuidKey) (s : MethodSet H)
    (l : List (GuidKey × MethodSet H)) :
    (updateSet key s l).map Prod.fst = l.map Prod.fst := by
  induction l with
  | nil => rfl
  | cons p rest ih =>
    obtain ⟨k, v⟩ := p
    by_cases hk : k = key
    · simp [updateSet, hk]
    · simp [updateSet, hk, ih]

theorem length_updateSet (key : GuidKey) (s : MethodSet H)
    (l : List (GuidKey × MethodSet H)) :
    (updateSet key s l).length = l.length := by
  have := congrArg List.length (map_fst_updateSet key s l)
  simpa using this

theorem mem_updateSet {key : GuidKey} {s : MethodSet H} {l : List (GuidKey × MethodSet H)}
    {b : GuidKey × MethodSet H} (hb : b ∈ updateSet key s l) : b ∈ l ∨ b = (key, s) := by
  induction l with
  | nil => simp [updateSet] at hb
  | cons p rest ih =>
    obtain ⟨k, v⟩ := p
    by_cases hk : k = key
    · subst hk
      simp [updateSet] at hb
      rcases hb with hb | hb
      · right; simp [hb]
      · left; exact List.mem_cons_of_mem _ hb
    · simp [updateSet, hk] at hb
      rcases hb with hb | hb
      · left; simp [hb]
      · rcases ih hb with hb' | hb'
        · left; exact List.mem_cons_of_mem _ hb'
        · right; exact hb'

theorem mem_deleteSet {key : GuidKey} {l : List (GuidKey × MethodSet H)}
    {b : GuidKey × MethodSet H} (hb : b ∈ deleteSet key l) : b ∈ l := by
  induction l with
  | nil => simp [deleteSet] at hb
  | cons p rest ih =>
    obtain ⟨k, v⟩ := p
    by_cases hk : k = key
    · simp [deleteSet, hk] at hb
      exact List.mem_cons_of_mem _ hb
    · simp [deleteSet, hk] at hb
      rcases hb with hb | hb
      · simp [hb]
      · exact List.mem_cons_of_mem _ (ih hb)

theorem length_deleteSet {key : GuidKey} {s : MethodSet H} {l : List (GuidKey × MethodSet H)}
    (hfind : findSet key l = some s) : (deleteSet key l).length + 1 = l.length := by
  induction l with
  | nil => simp [findSet] at hfind
  | cons p rest ih =>
    obtain ⟨k, v⟩ := p
    by_cases hk : k = key
    · simp [deleteSet, hk]
    · simp only [findSet, if_neg hk] at hfind
      simp [deleteSet, hk, ← ih hfind]

theorem map_fst_deleteSet_sublist (key : GuidKey) (l : List (GuidKey × MethodSet H)) :
    ((deleteSet key l).map Prod.fst).Sublist (l.map Prod.fst) := by
  induction l with
  | nil => simp [deleteSet]
  | cons p rest ih =>
    obtain ⟨k, v⟩ := p
    by_cases hk : k = key
    · simp only [deleteSet, if_pos hk, List.map_cons]
      exact (List.sublist_cons_self _ _)
    · simp only [deleteSet, if_neg hk, List.map_cons]
      exact ih.cons₂ _

/-! ## SC.Set lemmas -/

theorem SCSet.mem_add (l : List H) (h : H) : h ∈ SCSet.add l h := by
  unfold SCSet.add
  by_cases hm : h ∈ l <;> simp [hm]

theorem SCSet.add_nodup {l : List H} (hl : l.Nodup) (h : H) : (SCSet.add l h).Nodup := by
  unfold SCSet.add
  by_cases hm : h ∈ l
  · simpa [hm] using hl
  · simp only [hm, if_false, if_neg hm]
    refine List.Nodup.append hl (List.nodup_singleton h) ?_
    intro a ha ha'
    simp at ha'
    exact hm (ha' ▸ ha)

theorem SCSet.add_ne_nil (l : List H) (h : H) : SCSet.add l h ≠ [] := by
  intro hcontra
  exact absurd (hcontra ▸ SCSet.mem_add l h) (List.not_mem_nil h)

theorem SCSet.add_of_mem {l : List H} {h : H} (hm : h ∈ l) : SCSet.add l h = l := by
  simp [SCSet.add, hm]

theorem SCSet.add_of_not_mem {l : List H} {h : H} (hm : h ∉ l) :
    SCSet.add l h = l ++ [h] := by
  simp [SCSet.add, hm]

theorem SCSet.remove_add_of_not_mem {l : List H} {h : H} (hm : h ∉ l) :
    SCSet.remove (SCSet.add l h) h = l := by
  rw [SCSet.add_of_not_mem hm]
  unfold SCSet.remove
  rw [List.erase_append_right _ hm, List.erase_cons_head, List.append_nil]

/-! ## Flattened-view lemmas -/

theorem mem_rebuildMembers {l : List (GuidKey × MethodSet H)} {p : JSOwner × H} :
    p ∈ rebuildMembers l ↔ ∃ b ∈ l, b.2.target = p.1 ∧ p.2 ∈ b.2.methods := by
  induction l with
  | nil => simp [rebuildMembers]
  | cons b rest ih =>
    obtain ⟨k, s⟩ := b
    obtain ⟨po, ph⟩ := p
    simp only [rebuildMembers, List.mem_append, List.mem_map, List.mem_reverse, ih,
      List.mem_cons]
    constructor
    · rintro (⟨m, hm, hpm⟩ | ⟨b, hb, hbt, hbm⟩)
      · injection hpm with h1 h2
        subst h1
        subst h2
        exact ⟨(k, s), Or.inl rfl, rfl, hm⟩
      · exact ⟨b, Or.inr hb, hbt, hbm⟩
    · rintro ⟨b, hb | hb, hbt, hbm⟩
      · subst hb
        exact Or.inl ⟨ph, hbm, by rw [hbt]⟩
      · exact Or.inr ⟨b, hb, hbt, hbm⟩

theorem rebuildMembers_nodup {l : List (GuidKey × MethodSet H)}
    (hm : ∀ b ∈ l, b.2.methods.Nodup)
    (ht : (l.map (fun b => b.2.target)).Nodup) :
    (rebuildMembers l).Nodup := by
  induction l with
  | nil => simp [rebuildMembers]
  | cons b rest ih =>
    obtain ⟨k, s⟩ := b
    simp only [List.map_cons, List.nodup_cons] at ht
    refine List.Nodup.append ?_ (ih (fun b hb => hm b (List.mem_cons_of_mem _ hb)) ht.2) ?_
    · refine List.Nodup.map ?_ (List.nodup_reverse.mpr (hm _ (List.mem_cons_self _ _)))
      intro a b hab
      simpa using hab
    · intro p hp hp'
      simp only [List.mem_map, List.mem_reverse] at hp
      obtain ⟨m, _, hpm⟩ := hp
      rw [mem_rebuildMembers] at hp'
      obtain ⟨b, hb, hbt, _⟩ := hp'
      apply ht.1
      rw [List.mem_map]
      exact ⟨b, hb, by rw [hbt, ← hpm]⟩

/-! ## Equation lemmas for the operations -/

theorem add_eq_of_none (st : ObserverSet H) (o : JSOwner) (h : H)
    (hfind : findSet (keyFor o) st.buckets = none) :
    add st o h =
      { buckets := st.buckets ++ [(keyFor o, ⟨o, SCSet.add [] h⟩)]
        targets := st.targets + 1
        members := st.members
        membersCacheIsValid := false } := by
  simp [add, hfind]

theorem add_eq_of_some (st : ObserverSet H) (o : JSOwner) (h : H) (s : MethodSet H)
    (hfind : findSet (keyFor o) st.buckets = some s) :
    add st o h =
      { buckets := updateSet (keyFor o) ⟨s.target, SCSet.add s.methods h⟩ st.buckets
        targets := st.targets
        members := st.members
        membersCacheIsValid := false } := by
  simp [add, hfind]

theorem remove_eq_of_none (st : ObserverSet H) (o : JSOwner) (h : H)
    (hfind : findSet (keyFor o) st.buckets = none) :
    remove st o h = (false, st) := by
  simp [remove, hfind]

theorem remove_eq_of_some_delete (st : ObserverSet H) (o : JSOwner) (h : H) (s : MethodSet H)
    (hfind : findSet (keyFor o) st.buckets = some s)
    (hlen : (SCSet.remove s.methods h).length ≤ 0) :
    remove st o h =
      (true,
        { buckets := deleteSet (keyFor o) st.buckets
          targets := st.targets - 1
          members := st.members
          membersCacheIsValid := false }) := by
  simp [remove, hfind, hlen]

theorem remove_eq_of_some_keep (st : ObserverSet H) (o : JSOwner) (h : H) (s : MethodSet H)
    (hfind : findSet (keyFor o) st.buckets = some s)
    (hlen : ¬ (SCSet.remove s.methods h).length ≤ 0) :
    remove st o h =
      (true,
        { buckets := updateSet (keyFor o) ⟨s.target, SCSet.remove s.methods h⟩ st.buckets
          targets := st.targets
          members := st.members
          membersCacheIsValid := false }) := by
  simp only [remove, hfind]
  rw [if_neg hlen]

theorem getMembers_eq_of_valid (st : ObserverSet H)
    (hvalid : st.membersCacheIsValid = true) : getMembers st = (st.members, st) := by
  simp [getMembers, hvalid]

theorem getMembers_eq_of_invalid (st : ObserverSet H)
    (hvalid : st.membersCacheIsValid = false) :
    getMembers st =
      (rebuildMembers st.buckets,
        { st with members := rebuildMembers st.buckets, membersCacheIsValid := true }) := by
  simp [getMembers, hvalid]

/-! ## The registry's structural invariant -/

/-- Well-formedness of a registry state: the `targets` counter matches the
number of buckets; no bucket stores an empty method set; bucket keys are
distinct own-property names; each bucket sits under the key computed from its
stored `target`; each bucket's method list is duplicate-free (it models an
`SC.Set`); and a valid cache holds exactly the flattening of the buckets. -/
structure WF (st : ObserverSet H) : Prop where
  count : st.targets = (st.buckets.length : Int)
  nonempty : ∀ b ∈ st.buckets, b.2.methods ≠ []
  keysNodup : (st.buckets.map Prod.fst).Nodup
  keyConsistent : ∀ b ∈ st.buckets, keyFor b.2.target = b.1
  methodsNodup : ∀ b ∈ st.buckets, b.2.methods.Nodup
  cache : st.membersCacheIsValid = true → st.members = rebuildMembers st.buckets

theorem WF.targetsNodup {st : ObserverSet H} (hwf : WF st) :
    (st.buckets.map (fun b => b.2.target)).Nodup := by
  have hmap : st.buckets.map Prod.fst =
      (st.buckets.map (fun b => b.2.target)).map keyFor := by
    rw [List.map_map]
    exact (List.map_congr_left (fun b hb => (hwf.keyConsistent b hb).symm))
  exact List.Nodup.of_map keyFor (hmap ▸ hwf.keysNodup)

theorem wf_create : WF (create : ObserverSet H) := by
  constructor <;> simp [create]

theorem wf_add {st : ObserverSet H} (hwf : WF st) (o : JSOwner) (h : H) :
    WF (add st o h) := by
  cases hfind : findSet (keyFor o) st.buckets with
  | none =>
    have hknotin : ∀ p ∈ st.buckets, p.1 ≠ keyFor o := findSet_eq_none.mp hfind
    rw [add_eq_of_none st o h hfind]
    constructor
    · simp [hwf.count]
    · intro b hb
      simp only [List.mem_append, List.mem_singleton] at hb
      rcases hb with hb | hb
      · exact hwf.nonempty b hb
      · subst hb
        exact SCSet.add_ne_nil [] h
    · simp only [List.map_append, List.map_cons, List.map_nil]
      rw [List.nodup_append]
      refine ⟨hwf.keysNodup, List.nodup_singleton _, ?_⟩
      intro k hk hk'
      simp only [List.mem_map] at hk
      obtain ⟨p, hp, hpk⟩ := hk
      simp only [List.mem_singleton] at hk'
      exact hknotin p hp (hpk.trans hk')
    · intro b hb
      simp only [List.mem_append, List.mem_singleton] at hb
      rcases hb with hb | hb
      · exact hwf.keyConsistent b hb
      · subst hb; rfl
    · intro b hb
      simp only [List.mem_append, List.mem_singleton] at hb
      rcases hb with hb | hb
      · exact hwf.methodsNodup b hb
      · subst hb
        exact SCSet.add_nodup (List.nodup_nil) h
    · intro hvalid
      simp at hvalid
  | some s =>
    have hmem : (keyFor o, s) ∈ st.buckets := findSet_mem hfind
    rw [add_eq_of_some st o h s hfind]
    constructor
    · simp [hwf.count, length_updateSet]
    · intro b hb
      rcases mem_updateSet hb with hb' | hb'
      · exact hwf.nonempty b hb'
      · subst hb'
        exact SCSet.add_ne_nil _ h
    · simpa [map_fst_updateSet] using hwf.keysNodup
    · intro b hb
      rcases mem_updateSet hb with hb' | hb'
      · exact hwf.keyConsistent b hb'
      · subst hb'
        simpa using hwf.keyConsistent _ hmem
    · intro b hb
      rcases mem_updateSet hb with hb' | hb'
      · exact hwf.methodsNodup b hb'
      · subst hb'
        exact SCSet.add_nodup (hwf.methodsNodup _ hmem) h
    · intro hvalid
      simp at hvalid

theorem wf_remove {st : ObserverSet H} (hwf : WF st) (o : JSOwner) (h : H) :
    WF (remove st o h).2 := by
  cases hfind : findSet (keyFor o) st.buckets with
  | none =>
    rw [remove_eq_of_none st o h hfind]
    exact hwf
  | some s =>
    have hmem : (keyFor o, s) ∈ st.buckets := findSet_mem hfind
    by_cases hlen : (SCSet.remove s.methods h).length ≤ 0
    · rw [remove_eq_of_some_delete st o h s hfind hlen]
      constructor
      · have := length_deleteSet (l := st.buckets) hfind
        rw [hwf.count, ← this]
        push_cast
        ring
      · intro b hb
        exact hwf.nonempty b (mem_deleteSet hb)
      · exact (map_fst_deleteSet_sublist _ _).nodup hwf.keysNodup
      · intro b hb
        exact hwf.keyConsistent b (mem_deleteSet hb)
      · intro b hb
        exact hwf.methodsNodup b (mem_deleteSet hb)
      · intro hvalid
        simp at hvalid
    · rw [remove_eq_of_some_keep st o h s hfind hlen]
      constructor
      · simp [hwf.count, length_updateSet]
      · intro b hb
        rcases mem_updateSet hb with hb' | hb'
        · exact hwf.nonempty b hb'
        · subst hb'
          intro hnil
          have hnil' : SCSet.remove s.methods h = [] := hnil
          exact hlen (by simp [hnil'])
      · simpa [map_fst_updateSet] using hwf.keysNodup
      · intro b hb
        rcases mem_updateSet hb with hb' | hb'
        · exact hwf.keyConsistent b hb'
        · subst hb'
          simpa using hwf.keyConsistent _ hmem
      · intro b hb
        rcases mem_updateSet hb with hb' | hb'
        · exact hwf.methodsNodup b hb'
        · subst hb'
          exact List.Nodup.erase h (hwf.methodsNodup _ hmem)
      · intro hvalid
        simp at hvalid

theorem wf_getMembers {st : ObserverSet H} (hwf : WF st) : WF (getMembers st).2 := by
  by_cases hvalid : st.membersCacheIsValid
  · rw [getMembers_eq_of_valid st hvalid]
    exact hwf
  · rw [getMembers_eq_of_invalid st (Bool.of_not_eq_true hvalid)]
    exact ⟨hwf.count, hwf.nonempty, hwf.keysNodup, hwf.keyConsistent, hwf.methodsNodup,
      fun _ => rfl⟩

theorem wf_clone {st : ObserverSet H} (hwf : WF st) : WF (clone st) := by
  exact ⟨hwf.count, hwf.nonempty, hwf.keysNodup, hwf.keyConsistent, hwf.methodsNodup,
    by simp [clone]⟩

/-- Every reachable registry state is well-formed. -/
theorem reachable_wf {st : ObserverSet H} (hr : Reachable st) : WF st := by
  induction hr with
  | create => exact wf_create
  | add st o h _ ih => exact wf_add ih o h
  | remove st o h _ ih => exact wf_remove ih o h
  | getMembers st _ ih => exact wf_getMembers ih
  | clone st _ ih => exact wf_clone ih

/-- For any well-formed state, the sequence `getMembers` returns is exactly
the flattening of the current buckets (valid cache or not). -/
theorem getMembers_fst {st : ObserverSet H} (hwf : WF st) :
    (getMembers st).1 = rebuildMembers st.buckets := by
  by_cases hvalid : st.membersCacheIsValid
  · rw [getMembers_eq_of_valid st hvalid]
    exact hwf.cache hvalid
  · rw [getMembers_eq_of_invalid st (Bool.of_not_eq_true hvalid)]

/-! ## Component lemmas for single operations -/

theorem add_members (st : ObserverSet H) (o : JSOwner) (h : H) :
    (add st o h).members = st.members := by
  cases hfind : findSet (keyFor o) st.buckets with
  | none => rw [add_eq_of_none st o h hfind]
  | some s => rw [add_eq_of_some st o h s hfind]

theorem remove_members (st : ObserverSet H) (o : JSOwner) (h : H) :
    (remove st o h).2.members = st.members := by
  cases hfind : findSet (keyFor o) st.buckets with
  | none => rw [remove_eq_of_none st o h hfind]
  | some s =>
    by_cases hlen : (SCSet.remove s.methods h).length ≤ 0
    · rw [remove_eq_of_some_delete st o h s hfind hlen]
    · rw [remove_eq_of_some_keep st o h s hfind hlen]

theorem add_cache_invalid (st : ObserverSet H) (o : JSOwner) (h : H) :
    (add st o h).membersCacheIsValid = false := by
  cases hfind : findSet (keyFor o) st.buckets with
  | none => rw [add_eq_of_none st o h hfind]
  | some s => rw [add_eq_of_some st o h s hfind]

theorem add_buckets_of_none (st : ObserverSet H) (o : JSOwner) (h : H)
    (hfind : findSet (keyFor o) st.buckets = none) :
    (add st o h).buckets = st.buckets ++ [(keyFor o, ⟨o, SCSet.add [] h⟩)] := by
  rw [add_eq_of_none st o h hfind]

theorem add_buckets_of_some (st : ObserverSet H) (o : JSOwner) (h : H) (s : MethodSet H)
    (hfind : findSet (keyFor o) st.buckets = some s) :
    (add st o h).buckets =
      updateSet (keyFor o) ⟨s.target, SCSet.add s.methods h⟩ st.buckets := by
  rw [add_eq_of_some st o h s hfind]

/-! ## Claim theorems for the observer registry -/

/-- C1 (code-bug evaluation): at the failing input — a registry holding only
the pair `(obj 0, 0)` — `remove(obj 0, 1)` returns `true` even though handler
`1` was never added, because the source returns `YES` whenever the owner's
bucket exists; the second conjunct shows the bucket contents are indeed left
unchanged, so nothing was removed.  This contradicts the claim and the
`remove` doc comment ("returns YES if the items was removed, NO if it was not
found"). -/
theorem remove_absent_pair_returns_true :
    (remove (add (create : ObserverSet Nat) (.obj 0) 0) (.obj 0) 1).1 = true ∧
    (remove (add (create : ObserverSet Nat) (.obj 0) 0) (.obj 0) 1).2.buckets =
      (add (create : ObserverSet Nat) (.obj 0) 0).buckets := by
  decide

/-- C2 (counterexample): the sequence returned by `getMembers` is the
`_members` array itself, which the source reuses across rebuilds
(`this._members.length = 0`), so every returned sequence aliases the
`members` field and its later contents are the later state's `members`
field.  Concretely: register `(obj 0, 0)`, call `getMembers` (the held
sequence reads `[(obj 0, 0)]`), then `add (obj 0, 1)` and call `getMembers`
again — the rebuild refills the same array, so the held sequence's contents
have changed, refuting the claim that previously returned sequences are
unchanged by subsequent `members()` calls. -/
theorem members_snapshot_counterexample :
    ((getMembers (add ((getMembers (add (create : ObserverSet Nat) (.obj 0) 0)).2)
        (.obj 0) 1)).2).members ≠
      ((getMembers (add (create : ObserverSet Nat) (.obj 0) 0)).2).members := by
  decide

/-- C2 (amended): sequences returned by `getMembers` alias the registry's
internal `_members` array; `add` and `remove` never change that array's
contents (they only clear the validity flag), so held sequences are stable
across mutations — but a `getMembers` call that rebuilds after a mutation
refills the same array in place, so previously returned sequences do change
then (see the counterexample). -/
theorem members_unchanged_by_add_remove (st : ObserverSet H) (o : JSOwner) (h : H) :
    (add st o h).members = st.members ∧ (remove st o h).2.members = st.members :=
  ⟨add_members st o h, remove_members st o h⟩

/-- C3: in every reachable registry state, the `targets` counter equals the
number of entries in the key-to-set mapping; the stored owners are pairwise
distinct (so this is also the number of distinct owners holding a bucket);
and no bucket ever stores an empty method set, so every counted owner has at
least one registered handler. -/
theorem ownerCount_accuracy {st : ObserverSet H} (hr : Reachable st) :
    st.targets = (st.buckets.length : Int) ∧
    (st.buckets.map (fun b => b.2.target)).Nodup ∧
    ∀ b ∈ st.buckets, b.2.methods ≠ [] := by
  have hwf := reachable_wf hr
  exact ⟨hwf.count, hwf.targetsNodup, hwf.nonempty⟩

/-- C3 witness: the theorem applied at the concrete reachable state
`create().add(obj 0, 7)`. -/
theorem ownerCount_accuracy_witness :
    Reachable (add (create : ObserverSet Nat) (.obj 0) 7) ∧
    ((add (create : ObserverSet Nat) (.obj 0) 7).targets =
        ((add (create : ObserverSet Nat) (.obj 0) 7).buckets.length : Int) ∧
      ((add (create : ObserverSet Nat) (.obj 0) 7).buckets.map
          (fun b => b.2.target)).Nodup ∧
      ∀ b ∈ (add (create : ObserverSet Nat) (.obj 0) 7).buckets, b.2.methods ≠ []) :=
  ⟨Reachable.add _ _ _ Reachable.create,
    ownerCount_accuracy (Reachable.add _ _ _ Reachable.create)⟩

/-- C4: in every reachable state, `getMembers` returns exactly the
flattening of the current mapping (one pair per handler per owner, no
duplicates), no matter how often it was called before; and whenever the
cache flag is set, the cached `_members` contents are exactly that
flattening. -/
theorem members_cache_correct {st : ObserverSet H} (hr : Reachable st) :
    (getMembers st).1 = rebuildMembers st.buckets ∧
    (getMembers st).1.Nodup ∧
    (st.membersCacheIsValid = true → st.members = rebuildMembers st.buckets) := by
  have hwf := reachable_wf hr
  refine ⟨getMembers_fst hwf, ?_, hwf.cache⟩
  rw [getMembers_fst hwf]
  exact rebuildMembers_nodup hwf.methodsNodup hwf.targetsNodup

/-- C4 witness: the theorem applied at a concrete reachable state whose
cache has been made valid by a prior `getMembers` call. -/
theorem members_cache_correct_witness :
    Reachable ((getMembers (add (create : ObserverSet Nat) (.obj 0) 2)).2) ∧
    ((getMembers ((getMembers (add (create : ObserverSet Nat) (.obj 0) 2)).2)).1 =
        rebuildMembers ((getMembers (add (create : ObserverSet Nat) (.obj 0) 2)).2).buckets ∧
      (getMembers ((getMembers (add (create : ObserverSet Nat) (.obj 0) 2)).2)).1.Nodup ∧
      (((getMembers (add (create : ObserverSet Nat) (.obj 0) 2)).2).membersCacheIsValid = true →
        ((getMembers (add (create : ObserverSet Nat) (.obj 0) 2)).2).members =
          rebuildMembers ((getMembers (add (create : ObserverSet Nat) (.obj 0) 2)).2).buckets)) :=
  ⟨Reachable.getMembers _ (Reachable.add _ _ _ Reachable.create),
    members_cache_correct (Reachable.getMembers _ (Reachable.add _ _ _ Reachable.create))⟩

/-- C5: for every reachable registry, the clone's `getMembers` result equals
the original's, the clone's `targets` count equals the original's, and the
clone's cache starts invalid.  Mutual independence under later mutation holds
because `clone` copies every bucket's `SC.Set` (`oldSet.clone()`) instead of
sharing it, which is what justifies modelling registries as plain values
here: `add`/`remove` construct a new value and leave every other registry
value untouched. -/
theorem clone_independent {st : ObserverSet H} (hr : Reachable st) :
    (getMembers (clone st)).1 = (getMembers st).1 ∧
    (clone st).targets = st.targets ∧
    (clone st).membersCacheIsValid = false := by
  have hwf := reachable_wf hr
  refine ⟨?_, rfl, rfl⟩
  rw [getMembers_fst (wf_clone hwf), getMembers_fst hwf]
  rfl

/-- C5 witness: the theorem applied at the concrete reachable state
`create().add(obj 0, 3)`. -/
theorem clone_independent_witness :
    Reachable (add (create : ObserverSet Nat) (.obj 0) 3) ∧
    ((getMembers (clone (add (create : ObserverSet Nat) (.obj 0) 3))).1 =
        (getMembers (add (create : ObserverSet Nat) (.obj 0) 3)).1 ∧
      (clone (add (create : ObserverSet Nat) (.obj 0) 3)).targets =
        (add (create : ObserverSet Nat) (.obj 0) 3).targets ∧
      (clone (add (create : ObserverSet Nat) (.obj 0) 3)).membersCacheIsValid = false) :=
  ⟨Reachable.add _ _ _ Reachable.create,
    clone_independent (Reachable.add _ _ _ Reachable.create)⟩

/-- Adding the same (owner, handler) pair twice produces a state equal to
adding it once, for every starting state: the second `add` finds the bucket,
the guarded `SC.Set.add` is a no-op, and the cache flag is already clear. -/
theorem add_add_self (st : ObserverSet H) (o : JSOwner) (h : H) :
    add (add st o h) o h = add st o h := by
  cases hfind : findSet (keyFor o) st.buckets with
  | none =>
    rw [add_eq_of_none st o h hfind]
    have hfind2 :
        findSet (keyFor o) (st.buckets ++ [(keyFor o, ⟨o, SCSet.add [] h⟩)]) =
          some ⟨o, SCSet.add [] h⟩ := by
      rw [findSet_append_of_none hfind]
      simp [findSet]
    refine (add_eq_of_some ⟨st.buckets ++ [(keyFor o, ⟨o, SCSet.add [] h⟩)],
      st.targets + 1, st.members, false⟩ o h ⟨o, SCSet.add [] h⟩ hfind2).trans ?_
    simp only [SCSet.add_of_mem (SCSet.mem_add [] h)]
    rw [updateSet_self hfind2]
  | some s =>
    rw [add_eq_of_some st o h s hfind]
    have hfind2 :
        findSet (keyFor o) (updateSet (keyFor o) ⟨s.target, SCSet.add s.methods h⟩
            st.buckets) =
          some ⟨s.target, SCSet.add s.methods h⟩ := by
      rw [findSet_updateSet, hfind]
      rfl
    refine (add_eq_of_some ⟨updateSet (keyFor o) ⟨s.target, SCSet.add s.methods h⟩
      st.buckets, st.targets, st.members, false⟩ o h ⟨s.target, SCSet.add s.methods h⟩
      hfind2).trans ?_
    simp only [SCSet.add_of_mem (SCSet.mem_add s.methods h)]
    rw [updateSet_updateSet]

/-- C6: `add` is idempotent — for every registry state and every
(owner, handler) pair, adding twice yields the same `getMembers` result and
the same `targets` count as adding once (in fact the whole state is equal,
see `add_add_self`). -/
theorem add_idempotent (st : ObserverSet H) (o : JSOwner) (h : H) :
    (getMembers (add (add st o h) o h)).1 = (getMembers (add st o h)).1 ∧
    (add (add st o h) o h).targets = (add st o h).targets := by
  rw [add_add_self st o h]
  exact ⟨rfl, rfl⟩

/-- Adding a not-previously-present pair and then removing it restores the
buckets, `targets` and `_members` exactly, with `remove` reporting `true`. -/
theorem remove_add_eq (st : ObserverSet H) (o : JSOwner) (h : H) (hwf : WF st)
    (habsent : ∀ s, findSet (keyFor o) st.buckets = some s → h ∉ s.methods) :
    remove (add st o h) o h =
      (true, ⟨st.buckets, st.targets, st.members, false⟩) := by
  cases hfind : findSet (keyFor o) st.buckets with
  | none =>
    rw [add_eq_of_none st o h hfind]
    have hfind2 :
        findSet (keyFor o) (st.buckets ++ [(keyFor o, ⟨o, SCSet.add [] h⟩)]) =
          some ⟨o, SCSet.add [] h⟩ := by
      rw [findSet_append_of_none hfind]
      simp [findSet]
    have hrm : SCSet.remove (SCSet.add ([] : List H) h) h = [] :=
      SCSet.remove_add_of_not_mem (List.not_mem_nil h)
    refine (remove_eq_of_some_delete ⟨st.buckets ++ [(keyFor o, ⟨o, SCSet.add [] h⟩)],
      st.targets + 1, st.members, false⟩ o h ⟨o, SCSet.add [] h⟩ hfind2
      (by simp [hrm])).trans ?_
    simp [deleteSet_append_of_none hfind, deleteSet]
  | some s =>
    have hnotmem : h ∉ s.methods := habsent s hfind
    have hne : s.methods ≠ [] := hwf.nonempty _ (findSet_mem hfind)
    rw [add_eq_of_some st o h s hfind]
    have hfind2 :
        findSet (keyFor o) (updateSet (keyFor o) ⟨s.target, SCSet.add s.methods h⟩
            st.buckets) =
          some ⟨s.target, SCSet.add s.methods h⟩ := by
      rw [findSet_updateSet, hfind]
      rfl
    have hrm : SCSet.remove (SCSet.add s.methods h) h = s.methods :=
      SCSet.remove_add_of_not_mem hnotmem
    have hlen : ¬ (SCSet.remove (SCSet.add s.methods h) h).length ≤ 0 := by
      rw [hrm]
      simpa [List.length_pos] using hne
    refine (remove_eq_of_some_keep ⟨updateSet (keyFor o) ⟨s.target, SCSet.add s.methods h⟩
      st.buckets, st.targets, st.members, false⟩ o h ⟨s.target, SCSet.add s.methods h⟩
      hfind2 hlen).trans ?_
    simp only [hrm]
    rw [updateSet_updateSet]
    have heta : (⟨s.target, s.methods⟩ : MethodSet H) = s := rfl
    rw [heta, updateSet_self hfind]

/-- C7: round trip — from any reachable state in which the pair
(owner, handler) is not registered, `add` then `remove` has `remove` return
`true` and leaves the `getMembers` result and the `targets` count exactly as
they were before the `add`. -/
theorem add_remove_roundtrip {st : ObserverSet H} {o : JSOwner} {h : H}
    (hr : Reachable st)
    (habsent : ∀ s, findSet (keyFor o) st.buckets = some s → h ∉ s.methods) :
    (remove (add st o h) o h).1 = true ∧
    (getMembers (remove (add st o h) o h).2).1 = (getMembers st).1 ∧
    (remove (add st o h) o h).2.targets = st.targets := by
  have hwf := reachable_wf hr
  rw [remove_add_eq st o h hwf habsent]
  refine ⟨rfl, ?_, rfl⟩
  rw [getMembers_fst hwf]
  rfl

/-- C7 witness: the theorem applied at the reachable state
`create().add(obj 0, 5)` with the absent pair `(obj 0, 6)`. -/
theorem add_remove_roundtrip_witness :
    Reachable (add (create : ObserverSet Nat) (.obj 0) 5) ∧
    ((remove (add (add (create : ObserverSet Nat) (.obj 0) 5) (.obj 0) 6) (.obj 0) 6).1 =
        true ∧
      (getMembers
          (remove (add (add (create : ObserverSet Nat) (.obj 0) 5) (.obj 0) 6)
            (.obj 0) 6).2).1 =
        (getMembers (add (create : ObserverSet Nat) (.obj 0) 5)).1 ∧
      (remove (add (add (create : ObserverSet Nat) (.obj 0) 5) (.obj 0) 6)
          (.obj 0) 6).2.targets =
        (add (create : ObserverSet Nat) (.obj 0) 5).targets) := by
  constructor
  · exact Reachable.add _ _ _ Reachable.create
  · refine add_remove_roundtrip (Reachable.add _ _ _ Reachable.create) ?_
    intro s hs
    have hs' : some (⟨.obj 0, [5]⟩ : MethodSet Nat) = some s := hs
    injection hs' with hs''
    subst hs''
    decide

/-- C8: every falsy owner value maps to the reserved `"__this__"` key, which
no real object's guid ever equals; and when handlers are registered under two
different falsy owner representations in sequence, the bucket's stored owner
back-reference — also the owner reported by `getMembers` for every handler in
that bucket — is the falsy value that was registered first. -/
theorem falsy_owner_coalescing {st : ObserverSet H} {o₁ o₂ : JSOwner} (h₁ h₂ : H)
    (ho₁ : o₁.truthy = false) (ho₂ : o₂.truthy = false)
    (hnone : findSet GuidKey.thisKey st.buckets = none) :
    keyFor o₁ = GuidKey.thisKey ∧ keyFor o₂ = GuidKey.thisKey ∧
    (∀ n, keyFor (JSOwner.obj n) ≠ GuidKey.thisKey) ∧
    (∃ s, findSet GuidKey.thisKey (add (add st o₁ h₁) o₂ h₂).buckets = some s ∧
      s.target = o₁ ∧ h₂ ∈ s.methods) ∧
    (o₁, h₂) ∈ (getMembers (add (add st o₁ h₁) o₂ h₂)).1 := by
  have hk₁ : keyFor o₁ = GuidKey.thisKey := by
    cases o₁ with
    | undef => rfl
    | null => rfl
    | obj n => simp [JSOwner.truthy] at ho₁
  have hk₂ : keyFor o₂ = GuidKey.thisKey := by
    cases o₂ with
    | undef => rfl
    | null => rfl
    | obj n => simp [JSOwner.truthy] at ho₂
  have hfind1 : findSet (keyFor o₁) st.buckets = none := by
    rw [hk₁]
    exact hnone
  have hb1 : (add st o₁ h₁).buckets =
      st.buckets ++ [(GuidKey.thisKey, ⟨o₁, SCSet.add [] h₁⟩)] := by
    rw [add_buckets_of_none st o₁ h₁ hfind1, hk₁]
  have hfindA : findSet (keyFor o₂) (add st o₁ h₁).buckets =
      some ⟨o₁, SCSet.add [] h₁⟩ := by
    rw [hk₂, hb1, findSet_append_of_none hnone]
    simp [findSet]
  have hb2 : (add (add st o₁ h₁) o₂ h₂).buckets =
      updateSet (keyFor o₂) ⟨o₁, SCSet.add (SCSet.add [] h₁) h₂⟩
        (add st o₁ h₁).buckets := by
    rw [add_buckets_of_some (add st o₁ h₁) o₂ h₂ ⟨o₁, SCSet.add [] h₁⟩ hfindA]
  have hfindB : findSet GuidKey.thisKey (add (add st o₁ h₁) o₂ h₂).buckets =
      some ⟨o₁, SCSet.add (SCSet.add [] h₁) h₂⟩ := by
    rw [hb2, hk₂, findSet_updateSet]
    rw [hk₂] at hfindA
    rw [hfindA]
    rfl
  refine ⟨hk₁, hk₂, fun n => by simp [keyFor], ⟨⟨o₁, SCSet.add (SCSet.add [] h₁) h₂⟩,
    hfindB, rfl, SCSet.mem_add _ h₂⟩, ?_⟩
  rw [getMembers_eq_of_invalid _ (add_cache_invalid (add st o₁ h₁) o₂ h₂)]
  show (o₁, h₂) ∈ rebuildMembers (add (add st o₁ h₁) o₂ h₂).buckets
  rw [mem_rebuildMembers]
  exact ⟨(GuidKey.thisKey, ⟨o₁, SCSet.add (SCSet.add [] h₁) h₂⟩), findSet_mem hfindB,
    rfl, SCSet.mem_add _ h₂⟩

/-- C8 witness: the theorem applied with the empty registry, first owner
`undefined`, second owner `null`, and handlers `0` and `1`. -/
theorem falsy_owner_coalescing_witness :
    (JSOwner.undef.truthy = false ∧ JSOwner.null.truthy = false ∧
      findSet GuidKey.thisKey (create : ObserverSet Nat).buckets = none) ∧
    (keyFor JSOwner.undef = GuidKey.thisKey ∧ keyFor JSOwner.null = GuidKey.thisKey ∧
      (∀ n, keyFor (JSOwner.obj n) ≠ GuidKey.thisKey) ∧
      (∃ s, findSet GuidKey.thisKey
          (add (add (create : ObserverSet Nat) JSOwner.undef 0) JSOwner.null 1).buckets =
            some s ∧ s.target = JSOwner.undef ∧ 1 ∈ s.methods) ∧
      (JSOwner.undef, 1) ∈
        (getMembers (add (add (create : ObserverSet Nat) JSOwner.undef 0)
          JSOwner.null 1)).1) :=
  ⟨⟨rfl, rfl, rfl⟩, falsy_owner_coalescing 0 1 rfl rfl rfl⟩

/-! ## SC.String.fmt (src/mixins/string.js)

`fmt` runs `this.replace(/%@([0-9]+)?/g, ...)`: it scans the template left to
right for tokens `%@` optionally followed by a maximal digit run, replacing
each with a rendered argument.  We embed the scan directly over the
template's character list. -/

/-- A JavaScript value passed to `fmt` as an argument: the call sites pass
`null` or values whose `toString()` result we take as the string itself. -/
inductive FmtArg where
  | null : FmtArg
  | str : String → FmtArg
deriving DecidableEq, Repr

/-- `((s===null) ? '(null)' : (s==undefined) ? '' : s).toString()` applied to
`args[argIndex]`: a missing argument (`undefined`) renders as the empty
string, `null` as the literal text `(null)`, any other value as itself. -/
def renderArg : Option FmtArg → String
  | none => ""
  | some FmtArg.null => "(null)"
  | some (FmtArg.str s) => s

/-- `args[argIndex]` for a possibly negative index (the token `%@0` produces
`parseInt("0",0)-1 = -1`): any index outside the array yields `undefined`,
modelled as `none`. -/
def getArg (args : List FmtArg) (i : Int) : Option FmtArg :=
  if i < 0 then none else args.get? i.toNat

/-- `parseInt(argIndex, 0)` on the non-empty digit string captured by
`([0-9]+)` — radix 10, leading zeros allowed. -/
def digitsToNat (ds : List Char) : Nat :=
  ds.foldl (fun n c => n * 10 + (c.toNat - 48)) 0

/-- The replacement loop of `fmt`: at each match of `%@([0-9]+)?` (the regex
consumes the maximal digit run), an un-numbered token `%@` substitutes
`args[idx++]`, a numbered token `%@N` substitutes `args[parseInt(N,0)-1]`
without touching `idx`; all other characters are copied verbatim. -/
def fmtChars (args : List FmtArg) : List Char → Nat → List Char
  | [], _ => []
  | '%' :: '@' :: rest, idx =>
    let ds := rest.takeWhile Char.isDigit
    if ds.isEmpty then
      (renderArg (getArg args (idx : Int))).data ++ fmtChars args rest (idx + 1)
    else
      (renderArg (getArg args ((digitsToNat ds : Int) - 1))).data ++
        fmtChars args (rest.dropWhile Char.isDigit) idx
  | c :: rest, idx => c :: fmtChars args rest idx
termination_by cs _ => cs.length
decreasing_by
  · simp only [List.length_cons]
    omega
  · simp only [List.length_cons]
    have hsub : (rest.dropWhile Char.isDigit).Sublist rest :=
      List.dropWhile_sublist Char.isDigit
    have := hsub.length_le
    omega
  · simp only [List.length_cons]
    omega

/-- `SC.String.fmt`, i.e. `"template".fmt(args...)`, with the implicit
position counter `idx` starting at `0`. -/
def fmt (template : String) (args : List FmtArg) : String :=
  String.mk (fmtChars args template.data 0)

/-- The spec's wording of one argument fetch: "the next positional argument"
or "the N-th argument"; "missing arguments render as empty string, `null`
renders as the literal text `(null)`". -/
def specArgText (args : List FmtArg) (n : Nat) : String :=
  match args.get? n with
  | none => ""
  | some FmtArg.null => "(null)"
  | some (FmtArg.str s) => s

/-- The `format` operation as the spec words it, over the same `%@([0-9]+)?`
token scan: an un-numbered token takes the next positional argument
(0-based cursor `next`, advanced only here), a numbered token `%@N` takes the
N-th argument counting from 1 (so `%@0`, like any `N` beyond the argument
count, is missing and renders empty). -/
def fmtSpecChars (args : List FmtArg) : List Char → Nat → List Char
  | [], _ => []
  | '%' :: '@' :: rest, next =>
    let ds := rest.takeWhile Char.isDigit
    if ds.isEmpty then
      (specArgText args next).data ++ fmtSpecChars args rest (next + 1)
    else
      (if digitsToNat ds = 0 then "" else specArgText args (digitsToNat ds - 1)).data ++
        fmtSpecChars args (rest.dropWhile Char.isDigit) next
  | c :: rest, next => c :: fmtSpecChars args rest next
termination_by cs _ => cs.length
decreasing_by
  · simp only [List.length_cons]
    omega
  · simp only [List.length_cons]
    have hsub : (rest.dropWhile Char.isDigit).Sublist rest :=
      List.dropWhile_sublist Char.isDigit
    have := hsub.length_le
    omega
  · simp only [List.length_cons]
    omega

/-- `format(template, ...args)` exactly as the spec describes it. -/
def fmtSpec (template : String) (args : List FmtArg) : String :=
  String.mk (fmtSpecChars args template.data 0)

theorem getArg_natCast (args : List FmtArg) (n : Nat) :
    getArg args (n : Int) = args.get? n := by
  simp [getArg]

theorem renderArg_eq_specArgText (args : List FmtArg) (n : Nat) :
    renderArg (getArg args (n : Int)) = specArgText args n := by
  rw [getArg_natCast]
  unfold renderArg specArgText
  cases args.get? n with
  | none => rfl
  | some a => cases a <;> rfl

theorem renderArg_pred (args : List FmtArg) (n : Nat) :
    renderArg (getArg args ((n : Int) - 1)) =
      if n = 0 then "" else specArgText args (n - 1) := by
  cases n with
  | zero => simp [getArg, renderArg]
  | succ m =>
    have hcast : ((m + 1 : Nat) : Int) - 1 = (m : Int) := by push_cast; ring
    rw [hcast, renderArg_eq_specArgText]
    simp

/-- The two scanners agree on every character list and counter value. -/
theorem fmtChars_eq_fmtSpecChars (args : List FmtArg) (cs : List Char) (idx : Nat) :
    fmtChars args cs idx = fmtSpecChars args cs idx := by
  induction cs, idx using fmtChars.induct args with
  | case1 idx => rw [fmtChars.eq_1, fmtSpecChars.eq_1]
  | case2 rest idx ds hds ih =>
    simp only [ds] at hds
    rw [fmtChars.eq_2, fmtSpecChars.eq_2, if_pos hds, if_pos hds, ih,
      renderArg_eq_specArgText]
  | case3 rest idx ds hds ih =>
    simp only [ds] at hds
    rw [fmtChars.eq_2, fmtSpecChars.eq_2, if_neg hds, if_neg hds, ih, renderArg_pred]
  | case4 c rest idx h1 ih =>
    rw [fmtChars.eq_3 args idx c rest h1, fmtSpecChars.eq_3 args idx c rest h1, ih]

/-- C9: `fmt` substitutes each `%@` token with the next positional argument
and each `%@N` token with the N-th argument (1-indexed); a missing argument
renders as the empty string and `null` renders as the literal text `(null)` —
formalised as extensional equality between the embedded `fmt` and `fmtSpec`,
the substitution written from the spec's words, together with the doc-comment
examples and a case exercising `null` and a missing argument. -/
theorem fmt_matches_spec :
    (∀ (template : String) (args : List FmtArg), fmt template args = fmtSpec template args) ∧
    fmt "Hello %@ %@" [FmtArg.str "John", FmtArg.str "Doe"] = "Hello John Doe" ∧
    fmt "Hello %@2, %@1" [FmtArg.str "John", FmtArg.str "Doe"] = "Hello Doe, John" ∧
    fmt "%@ %@ %@" [FmtArg.null] = "(null)  " := by
  refine ⟨?_, ?_, ?_, ?_⟩
  · intro template args
    unfold fmt fmtSpec
    rw [fmtChars_eq_fmtSpecChars]
  · simp [fmt, fmtChars, renderArg, getArg, digitsToNat]
  · simp [fmt, fmtChars, renderArg, getArg, digitsToNat]
  · simp [fmt, fmtChars, renderArg, getArg, digitsToNat]

/-- C10: the implicit position counter advances only when an un-numbered
`%@` token is substituted (first conjunct: the continuation runs at
`idx + 1`); an explicitly numbered `%@N` token leaves it untouched (second
conjunct: the continuation runs at the same `idx`); hence mixing the forms
draws from independent positions, e.g. `"%@2 %@".fmt("a","b") = "b a"`, not
`"b b"`. -/
theorem numbered_token_keeps_counter :
    (∀ (args : List FmtArg) (idx : Nat) (rest : List Char),
        (rest.takeWhile Char.isDigit).isEmpty = true →
        fmtChars args ('%' :: '@' :: rest) idx =
          (renderArg (getArg args (idx : Int))).data ++ fmtChars args rest (idx + 1)) ∧
    (∀ (args : List FmtArg) (idx : Nat) (rest : List Char),
        (rest.takeWhile Char.isDigit).isEmpty = false →
        fmtChars args ('%' :: '@' :: rest) idx =
          (renderArg (getArg args
              ((digitsToNat (rest.takeWhile Char.isDigit) : Int) - 1))).data ++
            fmtChars args (rest.dropWhile Char.isDigit) idx) ∧
    fmt "%@2 %@" [FmtArg.str "a", FmtArg.str "b"] = "b a" ∧
    fmt "%@2 %@" [FmtArg.str "a", FmtArg.str "b"] ≠ "b b" := by
  have hba : fmt "%@2 %@" [FmtArg.str "a", FmtArg.str "b"] = "b a" := by
    simp [fmt, fmtChars, renderArg, getArg, digitsToNat]
  refine ⟨?_, ?_, hba, ?_⟩
  · intro args idx rest hds
    rw [fmtChars.eq_2, if_pos hds]
  · intro args idx rest hds
    rw [fmtChars.eq_2, if_neg (by simp [hds])]
  · rw [hba]
    decide

/-- C10 witness: the theorem's two conditional conjuncts applied at concrete
inputs — an un-numbered token followed by a space, and the numbered token
`%@2`. -/
theorem numbered_token_keeps_counter_witness :
    ((([' '] : List Char).takeWhile Char.isDigit).isEmpty = true ∧
      fmtChars [FmtArg.str "x"] ('%' :: '@' :: [' ']) 0 =
        (renderArg (getArg [FmtArg.str "x"] ((0 : Nat) : Int))).data ++
          fmtChars [FmtArg.str "x"] [' '] (0 + 1)) ∧
    ((['2'] : List Char).takeWhile Char.isDigit).isEmpty = false ∧
      fmtChars [FmtArg.str "x"] ('%' :: '@' :: ['2']) 0 =
        (renderArg (getArg [FmtArg.str "x"]
            ((digitsToNat (['2'].takeWhile Char.isDigit) : Int) - 1))).data ++
          fmtChars [FmtArg.str "x"] (['2'].dropWhile Char.isDigit) 0 :=
  ⟨⟨by decide,
      numbered_token_keeps_counter.1 [FmtArg.str "x"] 0 [' '] (by decide)⟩,
    by decide,
    numbered_token_keeps_counter.2.1 [FmtArg.str "x"] 0 ['2'] (by decide)⟩

example : (add (create : ObserverSet Nat) (.obj 0) 7).targets = 1 := by decide
example :
    (getMembers (add (create : ObserverSet Nat) (.obj 0) 7)).1 = [(.obj 0, 7)] := by decide
example :
    (remove (add (create : ObserverSet Nat) (.obj 0) 7) (.obj 0) 7).2 = create := by decide

end SproutCore
